import Mathlib
/-!
A verification development for the core of the photondb storage engine.

We shallowly embed, in Lean, the parts of the source that the checked
properties are about:

* the sorted-page codec (`src/page/sorted_page.rs`): builder layout
  `[offsets: u32; N][payload]`, the reader (`SortedPageRef::new/len/get`),
  and binary search (`SortedPageRef::rank`);
* the archive tree page model (`src/engine/src/tree/archive/page.rs`):
  `BaseData`, `DeltaData`, `BaseIndex`, `DeltaIndex`, `SplitNode`,
  `PageHeader` and their operations, with `BTreeMap` modelled as a
  key-sorted association list;
* the user-facing error type (`photondb/src/error.rs`).

Byte strings (`Vec<u8>` / `&[u8]`) are modelled as `List Nat`, with each
element understood modulo 256 where it matters; the Rust lexicographic
slice order is modelled by `bytesCmp`.
-/

/-- Byte strings (`Vec<u8>` / `&[u8]`). -/
abbrev Bytes := List Nat

/-- Lexicographic comparison of byte strings; this is `Ord` on `&[u8]`
in Rust (elementwise, with a proper prefix comparing as less). -/
def bytesCmp : Bytes → Bytes → Ordering
  | [], [] => .eq
  | [], _ :: _ => .lt
  | _ :: _, [] => .gt
  | a :: as, b :: bs =>
    if a < b then .lt else if b < a then .gt else bytesCmp as bs

/-- `a < b` on byte strings. -/
def bytesLt (a b : Bytes) : Prop := bytesCmp a b = .lt

/-- `a ≤ b` on byte strings. -/
def bytesLe (a b : Bytes) : Prop := bytesCmp a b ≠ .gt

instance : DecidableEq Ordering := fun a b => by
  cases a <;> cases b <;> first
    | exact isTrue rfl
    | exact isFalse (by intro h; cases h)

instance (a b : Bytes) : Decidable (bytesLt a b) := by
  unfold bytesLt; infer_instance

instance (a b : Bytes) : Decidable (bytesLe a b) := by
  unfold bytesLe; infer_instance

/-- Modelled from the spec: the codec module's `Encoder::put_u32` (the
`codec` module is not under `src/`) stores a `u32` little-endian; these
are its four bytes. -/
def u32le (n : Nat) : Bytes :=
  [n % 256, n / 256 % 256, n / 65536 % 256, n / 16777216 % 256]

/-- A little-endian `u32` read at byte position `p` of `c`
(`u32::from_le(ptr.read())` in `SortedPageRef::new`, `Decoder::get_u32`). -/
def readU32At (c : Bytes) (p : Nat) : Nat :=
  c.getD p 0 + 256 * c.getD (p + 1) 0 + 65536 * c.getD (p + 2) 0 +
    16777216 * c.getD (p + 3) 0

/-- `impl EncodeTo for &[u8]`: a `u32` length prefix followed by the bytes. -/
def encSlice (s : Bytes) : Bytes := u32le s.length ++ s

/-- One `(key, value)` pair as laid out by `SortedPageBuf::add`. -/
def encEntry (e : Bytes × Bytes) : Bytes := encSlice e.1 ++ encSlice e.2

/-- `encode_size` of a `(key, value)` pair. -/
def entrySize (e : Bytes × Bytes) : Nat := 4 + e.1.length + (4 + e.2.length)

/-- Total payload size of the first entries of `E`. -/
def sizesSum (E : List (Bytes × Bytes)) : Nat := (E.map entrySize).sum

/-- The payload region: the encoded entries in order. -/
def payloadOf (E : List (Bytes × Bytes)) : Bytes := (E.map encEntry).flatten

/-- The offset stored for entry `i` by `SortedPageBuf::add`:
`self.offsets.len() + self.payload.offset()`, i.e. the size of the
offsets table plus the payload bytes already written. -/
def offsetsList (E : List (Bytes × Bytes)) : List Nat :=
  (List.range E.length).map fun i => 4 * E.length + sizesSum (E.take i)

/-- `SortedPageBuilder::build`: the content of a page built from `E`. -/
def buildContent (E : List (Bytes × Bytes)) : Bytes :=
  ((offsetsList E).map u32le).flatten ++ payloadOf E

namespace SortedPageRef

/-- `SortedPageRef::new`: the number of offsets, recovered from the first
`u32` word (`size / 4`); `0` for empty content, without reading the word. -/
def numOffsets (c : Bytes) : Nat :=
  if c.length = 0 then 0 else readU32At c 0 / 4

/-- The offsets table seen by the reader (`slice::from_raw_parts`). -/
def offsets (c : Bytes) : List Nat :=
  (List.range (numOffsets c)).map fun i => readU32At c (4 * i)

/-- `SortedPageRef::len`. -/
def len (c : Bytes) : Nat := (offsets c).length

/-- `SortedPageRef::item_offset`. -/
def item_offset (c : Bytes) (i : Nat) : Option Nat := (offsets c)[i]?

/-- `SortedPageRef::item`: the content slice from `offsets[i]` to the next
offset (or to the end of the content for the last entry). -/
def item (c : Bytes) (i : Nat) : Option Bytes :=
  match item_offset c i with
  | none => none
  | some off =>
    some ((c.drop off).take (((item_offset c (i + 1)).getD c.length) - off))

/-- `impl DecodeFrom for &[u8]`: decode a length-prefixed slice, also
returning the remaining bytes. -/
def decSlice (b : Bytes) : Bytes × Bytes :=
  ((b.drop 4).take (readU32At b 0), b.drop (4 + readU32At b 0))

/-- `SortedPageRef::get` at `K = V = &[u8]`. -/
def get (c : Bytes) (i : Nat) : Option (Bytes × Bytes) :=
  (item c i).map fun b => ((decSlice b).1, (decSlice (decSlice b).2).1)

/-- The key decoded at index `i` (`K::decode_from` on `item(i).unwrap()`,
as done inside `rank`). -/
def keyAt (c : Bytes) (i : Nat) : Bytes := (decSlice ((item c i).getD [])).1

/-- The binary-search loop of `SortedPageRef::rank`. -/
def rankAux (c : Bytes) (target : Bytes) (left right : Nat) :
    Except Nat Nat :=
  if _h : left < right then
    match bytesCmp (keyAt c ((left + right) / 2)) target with
    | .lt => rankAux c target ((left + right) / 2 + 1) right
    | .gt => rankAux c target left ((left + right) / 2)
    | .eq => .ok ((left + right) / 2)
  else .error left
termination_by right - left
decreasing_by all_goals omega

/-- `SortedPageRef::rank`: `Ok(i)` on an exact match, else
`Err(insertion_point)`. -/
def rank (c : Bytes) (target : Bytes) : Except Nat Nat :=
  rankAux c target 0 (len c)

end SortedPageRef

/-- `BTreeMap::get` on an association list. -/
def mapLookup {α : Type} : List (Bytes × α) → Bytes → Option α
  | [], _ => none
  | e :: rest, k => if e.1 = k then some e.2 else mapLookup rest k

/-- `BTreeMap::insert` on a key-sorted association list. -/
def mapInsert {α : Type} : List (Bytes × α) → Bytes → α → List (Bytes × α)
  | [], k, v => [(k, v)]
  | e :: rest, k, v =>
    match bytesCmp k e.1 with
    | .lt => (k, v) :: e :: rest
    | .eq => (k, v) :: rest
    | .gt => e :: mapInsert rest k v

/-- `BTreeMap::remove` on an association list (order preserving). -/
def mapRemove {α : Type} : List (Bytes × α) → Bytes → List (Bytes × α)
  | [], _ => []
  | e :: rest, k =>
    if e.1 = k then mapRemove rest k else e :: mapRemove rest k

/-- `BaseData`: sorted records with `[lowest, highest)` bounds. -/
structure BaseData where
  size : Nat
  lowest : Bytes
  highest : Bytes
  records : List (Bytes × Bytes)
deriving DecidableEq

/-- `BaseData::new`. -/
def BaseData.new : BaseData := ⟨0, [], [], []⟩

/-- `BaseData::get`. -/
def BaseData.get (b : BaseData) (key : Bytes) : Option Bytes :=
  mapLookup b.records key

/-- `DeltaData`: sorted records mapping keys to `Some(value)` (a put) or
`None` (a delete). -/
structure DeltaData where
  records : List (Bytes × Option Bytes)
deriving DecidableEq

/-- `DeltaData::get`. -/
def DeltaData.get (d : DeltaData) (key : Bytes) : Option (Option Bytes) :=
  mapLookup d.records key

/-- `DeltaData::add`. -/
def DeltaData.add (d : DeltaData) (key : Bytes) (value : Option Bytes) :
    DeltaData :=
  { records := mapInsert d.records key value }

/-- `DeltaData::merge`: for each record of `other`,
`self.records.entry(key).or_insert(value)`, i.e. insert only where `self`
has no entry yet (so `self`, the head, wins). -/
def DeltaData.merge (d other : DeltaData) : DeltaData :=
  { records := other.records.foldl
      (fun m e => if (mapLookup m e.1).isSome then m else mapInsert m e.1 e.2)
      d.records }

/-- One iteration of `BaseData::apply`'s loop: insert a put, remove on a
delete, maintaining `size`. -/
def applyStep (b : BaseData) (e : Bytes × Option Bytes) : BaseData :=
  match e.2 with
  | some v =>
    match mapLookup b.records e.1 with
    | some old =>
      { b with size := b.size + e.1.length + v.length - old.length,
               records := mapInsert b.records e.1 v }
    | none =>
      { b with size := b.size + e.1.length + v.length,
               records := mapInsert b.records e.1 v }
  | none =>
    match mapLookup b.records e.1 with
    | some old =>
      { b with size := b.size - (e.1.length + old.length),
               records := mapRemove b.records e.1 }
    | none => b

/-- `BaseData::apply`. -/
def BaseData.apply (b : BaseData) (delta : DeltaData) : BaseData :=
  delta.records.foldl applyStep b

/-- The fold computing `size` in `BaseData::split` and `BaseData::retain`. -/
def recordsSize (rs : List (Bytes × Bytes)) : Nat :=
  rs.foldl (fun acc e => acc + e.1.length + e.2.length) 0

/-- `BaseData::split`: take the key at index `nth = (len + 1) / 2` as the
middle key; the right half keeps the entries from `nth` on. -/
def BaseData.split (b : BaseData) : Option BaseData :=
  match (b.records.map Prod.fst)[(b.records.length + 1) / 2]? with
  | some key =>
    some { size := recordsSize (b.records.drop ((b.records.length + 1) / 2)),
           lowest := key, highest := b.highest,
           records := b.records.drop ((b.records.length + 1) / 2) }
  | none => none

/-- `BaseData::retain`: keep the records in `[lowest, highest)`, an empty
`highest` meaning no upper bound. -/
def BaseData.retain (b : BaseData) (lowest highest : Bytes) : BaseData :=
  { size := recordsSize (b.records.filter fun e =>
      decide (bytesLe lowest e.1) &&
        (decide (bytesLt e.1 highest) || highest.isEmpty)),
    lowest := lowest, highest := highest,
    records := b.records.filter fun e =>
      decide (bytesLe lowest e.1) &&
        (decide (bytesLt e.1 highest) || highest.isEmpty) }

/-- A child handle `{ id, epoch }`. -/
structure PageHandle where
  id : Nat
  epoch : Nat
deriving DecidableEq

/-- `size_of_val` of a `PageHandle` (two `u64`s). -/
def handleSize : Nat := 16

/-- `BaseIndex`: sorted separator-to-child entries with bounds. -/
structure BaseIndex where
  size : Nat
  lowest : Bytes
  highest : Bytes
  children : List (Bytes × PageHandle)
deriving DecidableEq

/-- `BaseIndex::get`: `children.range(..=key).next_back()`, i.e. the entry
with the greatest separator `≤ key`. -/
def BaseIndex.get (b : BaseIndex) (key : Bytes) : Option PageHandle :=
  ((b.children.filter fun e => decide (bytesLe e.1 key)).getLast?).map
    Prod.snd

/-- The fold computing `size` in `BaseIndex::split` and `BaseIndex::retain`. -/
def childrenSize (rs : List (Bytes × PageHandle)) : Nat :=
  rs.foldl (fun acc e => acc + e.1.length + handleSize) 0

/-- `BaseIndex::split`: same middle key as `BaseData::split`, but the right
half keeps the entries from `nth - 1` on (`iter().skip(nth - 1)`). -/
def BaseIndex.split (b : BaseIndex) : Option BaseIndex :=
  match (b.children.map Prod.fst)[(b.children.length + 1) / 2]? with
  | some key =>
    some { size := childrenSize
             (b.children.drop ((b.children.length + 1) / 2 - 1)),
           lowest := key, highest := b.highest,
           children := b.children.drop ((b.children.length + 1) / 2 - 1) }
  | none => none

/-- `BaseIndex::retain`. -/
def BaseIndex.retain (b : BaseIndex) (lowest highest : Bytes) : BaseIndex :=
  { size := childrenSize (b.children.filter fun e =>
      decide (bytesLe lowest e.1) &&
        (decide (bytesLt e.1 highest) || highest.isEmpty)),
    lowest := lowest, highest := highest,
    children := b.children.filter fun e =>
      decide (bytesLe lowest e.1) &&
        (decide (bytesLt e.1 highest) || highest.isEmpty) }

/-- A split descriptor. -/
structure SplitNode where
  lowest : Bytes
  middle : Bytes
  highest : Bytes
  right_page : PageHandle
deriving DecidableEq

/-- `SplitNode::covers`: redirect to the right page for keys in
`[middle, highest)`, an empty `highest` meaning no upper bound. -/
def SplitNode.covers (s : SplitNode) (key : Bytes) : Option PageHandle :=
  if bytesLe s.middle key ∧ (bytesLt key s.highest ∨ s.highest = []) then
    some s.right_page
  else none

/-- The page header: chain length (`len`), pointer to the previous head
(`next`, an address word), and the page epoch. -/
structure PageHeader where
  len : Nat
  next : Nat
  epoch : Nat
deriving DecidableEq

/-- `PageHeader::new`: a base frame (`len = 1`, no next, epoch 0). -/
def PageHeader.new : PageHeader := ⟨1, 0, 0⟩

/-- `PageHeader::with_next`: clone the next frame's header, add one to
`len`, and point `next` at the frame (`addr` stands for
`next.into_usize()`). -/
def PageHeader.with_next (next : PageHeader) (addr : Nat) : PageHeader :=
  { len := next.len + 1, next := addr, epoch := next.epoch }

/-- `PageHeader::with_next_epoch`: `with_next`, then increment the epoch. -/
def PageHeader.with_next_epoch (next : PageHeader) (addr : Nat) : PageHeader :=
  { PageHeader.with_next next addr with
    epoch := (PageHeader.with_next next addr).epoch + 1 }

/-- A chain of frames grown from a base (`PageHeader::new`) by repeatedly
linking a new head: `true` uses `with_next_epoch`, `false` uses
`with_next`.  The resulting list is head first; the address argument does
not affect the header invariants, so `0` is passed. -/
def chainHeaders : List Bool → List PageHeader
  | [] => [PageHeader.new]
  | op :: ops =>
    (if op then
      PageHeader.with_next_epoch ((chainHeaders ops).headD PageHeader.new) 0
     else
      PageHeader.with_next ((chainHeaders ops).headD PageHeader.new) 0) ::
      chainHeaders ops

/-- The user-facing error enum: its only variant is `Corrupted`. -/
inductive Error where
  | Corrupted
deriving DecidableEq

/-- Modelled from the spec: the page store's error type
(`page_store::Error` is not under `src/`), following the spec's taxonomy:
`Corrupted`, `Io` carrying the native error (a numeric stand-in here),
`OutOfSpace`, and the internal `Conflict`. -/
inductive PageError where
  | Corrupted
  | Io (native : Nat)
  | OutOfSpace
  | Conflict
deriving DecidableEq

/-- `impl From<PageError> for Error`: `Corrupted` maps to `Corrupted`, and
every other variant hits `unreachable!` (a panic), modelled as `none`. -/
def fromPageError : PageError → Option Error
  | .Corrupted => some .Corrupted
  | _ => none

/-- A concrete two-entry base index page and a handle, used to refute C4
as stated. -/
def c4ExampleIndex : BaseIndex :=
  ⟨0, [], [], [([1], ⟨1, 0⟩), ([2], ⟨2, 0⟩)]⟩

/-- The handle of the first child of `c4ExampleIndex`. -/
def c4ExampleHandle : PageHandle := ⟨1, 0⟩

/-!
## Theorems
-/

theorem bytesCmp_eq_iff : ∀ {a b : Bytes}, bytesCmp a b = .eq ↔ a = b := by
  intro a
  induction a with
  | nil => intro b; cases b <;> simp [bytesCmp]
  | cons x xs ih =>
    intro b
    cases b with
    | nil => simp [bytesCmp]
    | cons y ys =>
      by_cases hxy : x < y
      · simp [bytesCmp, hxy]
        intro h; omega
      · by_cases hyx : y < x
        · simp [bytesCmp, hxy, hyx]
          intro h; omega
        · have hxeq : x = y := by omega
          simp [bytesCmp, hxy, hyx, hxeq, ih]

theorem bytesCmp_swap : ∀ (a b : Bytes),
    bytesCmp b a = (bytesCmp a b).swap := by
  intro a
  induction a with
  | nil => intro b; cases b <;> simp [bytesCmp, Ordering.swap]
  | cons x xs ih =>
    intro b
    cases b with
    | nil => simp [bytesCmp, Ordering.swap]
    | cons y ys =>
      by_cases hxy : x < y
      · have : ¬ y < x := by omega
        simp [bytesCmp, hxy, this, Ordering.swap]
      · by_cases hyx : y < x
        · simp [bytesCmp, hxy, hyx, Ordering.swap]
        · simp [bytesCmp, hxy, hyx, ih]

theorem bytesCmp_gt_iff {a b : Bytes} :
    bytesCmp a b = .gt ↔ bytesCmp b a = .lt := by
  rw [bytesCmp_swap b a]
  cases h : bytesCmp b a <;> simp [Ordering.swap, h]

theorem bytesLt_trans : ∀ {a b c : Bytes},
    bytesLt a b → bytesLt b c → bytesLt a c := by
  unfold bytesLt
  intro a
  induction a with
  | nil =>
    intro b c hab hbc
    cases b with
    | nil => cases hab
    | cons y ys =>
      cases c with
      | nil => cases hbc
      | cons z zs => rfl
  | cons x xs ih =>
    intro b c hab hbc
    cases b with
    | nil => cases hab
    | cons y ys =>
      cases c with
      | nil => cases hbc
      | cons z zs =>
        simp only [bytesCmp] at hab hbc ⊢
        by_cases hxy : x < y
        · -- x < y; need x < z or recurse
          by_cases hyz : y < z
          · have hxz : x < z := by omega
            simp [hxz]
          · by_cases hzy : z < y
            · simp [hyz, hzy] at hbc
            · have : y = z := by omega
              have hxz : x < z := by omega
              simp [hxz]
        · by_cases hyx : y < x
          · simp [hxy, hyx] at hab
          · have hxey : x = y := by omega
            subst hxey
            simp only [lt_irrefl, if_false] at hab
            by_cases hxz : x < z
            · simp [hxz]
            · by_cases hzx : z < x
              · simp [hxz, hzx] at hbc
              · simp only [hxz, hzx, if_false] at hbc ⊢
                exact ih hab hbc

theorem bytesLt_irrefl (a : Bytes) : ¬ bytesLt a a := by
  unfold bytesLt
  induction a with
  | nil => simp [bytesCmp]
  | cons x xs ih => simpa [bytesCmp] using ih

theorem bytesLe_of_lt {a b : Bytes} (h : bytesLt a b) : bytesLe a b := by
  unfold bytesLe; unfold bytesLt at h; simp [h]

theorem bytesLe_refl (a : Bytes) : bytesLe a a := by
  unfold bytesLe
  rw [bytesCmp_eq_iff.mpr rfl]
  simp

theorem bytesLe_iff_lt_or_eq {a b : Bytes} :
    bytesLe a b ↔ bytesLt a b ∨ a = b := by
  unfold bytesLe bytesLt
  rw [← bytesCmp_eq_iff (a := a) (b := b)]
  cases bytesCmp a b <;> simp

theorem not_bytesLe_iff {a b : Bytes} : ¬ bytesLe a b ↔ bytesLt b a := by
  unfold bytesLe bytesLt
  rw [← bytesCmp_gt_iff]
  cases bytesCmp a b <;> simp

theorem bytesLe_trans {a b c : Bytes} (hab : bytesLe a b) (hbc : bytesLe b c) :
    bytesLe a c := by
  rcases bytesLe_iff_lt_or_eq.mp hab with h | h
  · rcases bytesLe_iff_lt_or_eq.mp hbc with h' | h'
    · exact bytesLe_of_lt (bytesLt_trans h h')
    · subst h'; exact bytesLe_of_lt h
  · subst h; exact hbc

theorem bytesLt_of_le_of_lt {a b c : Bytes} (hab : bytesLe a b)
    (hbc : bytesLt b c) : bytesLt a c := by
  rcases bytesLe_iff_lt_or_eq.mp hab with h | h
  · exact bytesLt_trans h hbc
  · subst h; exact hbc

theorem bytesLt_nil (a : Bytes) : ¬ bytesLt a [] := by
  unfold bytesLt
  cases a <;> simp [bytesCmp]

theorem u32le_length (n : Nat) : (u32le n).length = 4 := rfl

theorem encEntry_length (e : Bytes × Bytes) :
    (encEntry e).length = entrySize e := by
  simp [encEntry, encSlice, u32le, entrySize]
  omega

theorem payloadOf_cons (e : Bytes × Bytes) (E : List (Bytes × Bytes)) :
    payloadOf (e :: E) = encEntry e ++ payloadOf E := by
  simp [payloadOf]

theorem payloadOf_length (E : List (Bytes × Bytes)) :
    (payloadOf E).length = sizesSum E := by
  induction E with
  | nil => simp [payloadOf, sizesSum]
  | cons e E ih =>
    rw [payloadOf_cons]
    simp [sizesSum, encEntry_length] at *
    omega

theorem sizesSum_cons (e : Bytes × Bytes) (E : List (Bytes × Bytes)) :
    sizesSum (e :: E) = entrySize e + sizesSum E := by
  simp [sizesSum]

theorem sizesSum_append (E F : List (Bytes × Bytes)) :
    sizesSum (E ++ F) = sizesSum E + sizesSum F := by
  simp [sizesSum]

theorem sizesSum_take_le (E : List (Bytes × Bytes)) (i : Nat) :
    sizesSum (E.take i) ≤ sizesSum E := by
  conv_rhs => rw [← List.take_append_drop i E]
  rw [sizesSum_append]
  omega

theorem sizesSum_take_succ (E : List (Bytes × Bytes)) (i : Nat)
    (h : i < E.length) :
    sizesSum (E.take (i + 1)) = sizesSum (E.take i) + entrySize (E.getD i ([], [])) := by
  rw [List.take_succ, sizesSum_append]
  have : E[i]? = some (E.getD i ([], [])) := by
    rw [List.getElem?_eq_getElem h]
    simp [List.getD_eq_getElem?_getD, List.getElem?_eq_getElem h]
  rw [this]
  simp [sizesSum]

theorem flatten_map_u32le_length (L : List Nat) :
    ((L.map u32le).flatten).length = 4 * L.length := by
  induction L with
  | nil => simp
  | cons n L ih => simp [ih, u32le_length]; omega

theorem offsetsList_length (E : List (Bytes × Bytes)) :
    (offsetsList E).length = E.length := by
  simp [offsetsList]

theorem buildContent_length (E : List (Bytes × Bytes)) :
    (buildContent E).length = 4 * E.length + sizesSum E := by
  rw [buildContent, List.length_append, flatten_map_u32le_length,
    offsetsList_length, payloadOf_length]

theorem readU32At_u32le (n : Nat) (r : Bytes) :
    readU32At (u32le n ++ r) 0 = n % 4294967296 := by
  simp [readU32At, u32le]
  omega

theorem getD_append_right' (xs r : Bytes) (p : Nat) :
    (xs ++ r).getD (xs.length + p) 0 = r.getD p 0 := by
  rw [List.getD_append_right xs r 0 _ (by omega)]
  congr 1
  omega

theorem readU32At_append_right (xs r : Bytes) (p : Nat) :
    readU32At (xs ++ r) (xs.length + p) = readU32At r p := by
  unfold readU32At
  have e1 : xs.length + p + 1 = xs.length + (p + 1) := by omega
  have e2 : xs.length + p + 2 = xs.length + (p + 2) := by omega
  have e3 : xs.length + p + 3 = xs.length + (p + 3) := by omega
  rw [e1, e2, e3, getD_append_right', getD_append_right', getD_append_right',
    getD_append_right']

theorem readU32At_flatten_u32le (L : List Nat) (tail : Bytes) :
    ∀ i, i < L.length →
      readU32At ((L.map u32le).flatten ++ tail) (4 * i) =
        L.getD i 0 % 4294967296 := by
  induction L with
  | nil => intro i h; simp at h
  | cons n L ih =>
    intro i h
    cases i with
    | zero =>
      simp only [List.map_cons, List.flatten_cons, List.append_assoc,
        Nat.mul_zero, List.getD_cons_zero]
      exact readU32At_u32le n _
    | succ i =>
      simp only [List.map_cons, List.flatten_cons, List.append_assoc,
        List.getD_cons_succ]
      have e : 4 * (i + 1) = (u32le n).length + 4 * i := by
        rw [u32le_length]; omega
      rw [e, readU32At_append_right]
      exact ih i (by simp at h; omega)

theorem offsetsList_getElem? (E : List (Bytes × Bytes)) (i : Nat)
    (h : i < E.length) :
    (offsetsList E)[i]? = some (4 * E.length + sizesSum (E.take i)) := by
  simp [offsetsList, List.getElem?_range h]

theorem offsetsList_getD (E : List (Bytes × Bytes)) (i : Nat)
    (h : i < E.length) :
    (offsetsList E).getD i 0 = 4 * E.length + sizesSum (E.take i) := by
  simp [List.getD_eq_getElem?_getD, offsetsList_getElem? E i h]

theorem readU32At_buildContent (E : List (Bytes × Bytes)) (i : Nat)
    (h : i < E.length) :
    readU32At (buildContent E) (4 * i) =
      (4 * E.length + sizesSum (E.take i)) % 4294967296 := by
  rw [buildContent,
    readU32At_flatten_u32le (offsetsList E) (payloadOf E) i
      (by rw [offsetsList_length]; exact h),
    offsetsList_getD E i h]

theorem numOffsets_buildContent (E : List (Bytes × Bytes))
    (hT : (buildContent E).length < 4294967296) :
    SortedPageRef.numOffsets (buildContent E) = E.length := by
  cases E with
  | nil => simp [SortedPageRef.numOffsets, buildContent, offsetsList, payloadOf]
  | cons e E' =>
    have hlen := buildContent_length (e :: E')
    have hne : (buildContent (e :: E')).length ≠ 0 := by
      rw [hlen]; simp
    have hr := readU32At_buildContent (e :: E') 0 (by simp)
    simp only [Nat.mul_zero, List.take_zero] at hr
    rw [SortedPageRef.numOffsets, if_neg hne, hr]
    have hz : sizesSum ([] : List (Bytes × Bytes)) = 0 := rfl
    rw [hz, Nat.add_zero,
      Nat.mod_eq_of_lt (by simp at hlen hT ⊢; omega)]
    omega

theorem offsets_buildContent (E : List (Bytes × Bytes))
    (hT : (buildContent E).length < 4294967296) :
    SortedPageRef.offsets (buildContent E) = offsetsList E := by
  rw [SortedPageRef.offsets, numOffsets_buildContent E hT, offsetsList]
  apply List.map_congr_left
  intro i hi
  rw [List.mem_range] at hi
  rw [readU32At_buildContent E i hi]
  apply Nat.mod_eq_of_lt
  have h1 := buildContent_length E
  have h2 := sizesSum_take_le E i
  omega

theorem len_buildContent (E : List (Bytes × Bytes))
    (hT : (buildContent E).length < 4294967296) :
    SortedPageRef.len (buildContent E) = E.length := by
  rw [SortedPageRef.len, offsets_buildContent E hT, offsetsList_length]

theorem item_offset_buildContent (E : List (Bytes × Bytes))
    (hT : (buildContent E).length < 4294967296) (i : Nat) (h : i < E.length) :
    SortedPageRef.item_offset (buildContent E) i =
      some (4 * E.length + sizesSum (E.take i)) := by
  rw [SortedPageRef.item_offset, offsets_buildContent E hT,
    offsetsList_getElem? E i h]

theorem item_offset_buildContent_ge (E : List (Bytes × Bytes))
    (hT : (buildContent E).length < 4294967296) (i : Nat)
    (h : E.length ≤ i) :
    SortedPageRef.item_offset (buildContent E) i = none := by
  rw [SortedPageRef.item_offset, offsets_buildContent E hT]
  exact List.getElem?_eq_none (by rw [offsetsList_length]; exact h)

theorem item_next_buildContent (E : List (Bytes × Bytes))
    (hT : (buildContent E).length < 4294967296) (i : Nat) (h : i < E.length) :
    (SortedPageRef.item_offset (buildContent E) (i + 1)).getD
        (buildContent E).length =
      4 * E.length + sizesSum (E.take (i + 1)) := by
  rcases Nat.lt_or_ge (i + 1) E.length with h' | h'
  · rw [item_offset_buildContent E hT (i + 1) h']; rfl
  · rw [item_offset_buildContent_ge E hT (i + 1) h', Option.getD_none,
      buildContent_length, List.take_of_length_le h']

theorem drop_append_of_length {α : Type} (A B : List α) (s : Nat) :
    (A ++ B).drop (A.length + s) = B.drop s := by
  rw [← List.drop_drop, List.drop_left]

theorem payloadOf_drop (E : List (Bytes × Bytes)) :
    ∀ i, (payloadOf E).drop (sizesSum (E.take i)) = payloadOf (E.drop i) := by
  induction E with
  | nil => intro i; simp [payloadOf, sizesSum]
  | cons e E ih =>
    intro i
    cases i with
    | zero => simp [sizesSum]
    | succ i =>
      rw [List.take_succ_cons, sizesSum_cons, payloadOf_cons,
        List.drop_succ_cons, ← encEntry_length e, drop_append_of_length]
      exact ih i

theorem buildContent_drop (E : List (Bytes × Bytes)) (i : Nat) :
    (buildContent E).drop (4 * E.length + sizesSum (E.take i)) =
      payloadOf (E.drop i) := by
  have hA : (((offsetsList E).map u32le).flatten).length = 4 * E.length := by
    rw [flatten_map_u32le_length, offsetsList_length]
  rw [buildContent, ← hA, drop_append_of_length, payloadOf_drop]

theorem getD_eq_of_lt (E : List (Bytes × Bytes)) (i : Nat)
    (h : i < E.length) : E.getD i ([], []) = E[i] := by
  rw [List.getD_eq_getElem?_getD, List.getElem?_eq_getElem h]; rfl

theorem item_buildContent (E : List (Bytes × Bytes))
    (hT : (buildContent E).length < 4294967296) (i : Nat) (h : i < E.length) :
    SortedPageRef.item (buildContent E) i =
      some (encEntry (E.getD i ([], []))) := by
  unfold SortedPageRef.item
  rw [item_offset_buildContent E hT i h]
  simp only []
  rw [item_next_buildContent E hT i h, buildContent_drop E i]
  have hdropE : E.drop i = E.getD i ([], []) :: E.drop (i + 1) := by
    rw [List.drop_eq_getElem_cons h, getD_eq_of_lt E i h]
  rw [hdropE, payloadOf_cons]
  have hsz := sizesSum_take_succ E i h
  rw [show 4 * E.length + sizesSum (E.take (i + 1)) -
        (4 * E.length + sizesSum (E.take i)) =
      entrySize (E.getD i ([], [])) by omega]
  rw [← encEntry_length, List.take_left]

theorem decSlice_encSlice (s r : Bytes) (h : s.length < 4294967296) :
    SortedPageRef.decSlice (encSlice s ++ r) = (s, r) := by
  unfold SortedPageRef.decSlice encSlice
  rw [List.append_assoc, readU32At_u32le, Nat.mod_eq_of_lt h,
    List.drop_left' (u32le_length s.length)]
  have e : 4 + s.length = (u32le s.length).length + s.length := by
    rw [u32le_length]
  rw [e, drop_append_of_length, List.take_left, List.drop_left]

theorem decSlice_encSlice_nil (s : Bytes) (h : s.length < 4294967296) :
    SortedPageRef.decSlice (encSlice s) = (s, []) := by
  have := decSlice_encSlice s [] h
  simpa using this

theorem entrySize_le_sizesSum (E : List (Bytes × Bytes)) (i : Nat)
    (h : i < E.length) : entrySize (E.getD i ([], [])) ≤ sizesSum E := by
  have hmem : E.getD i ([], []) ∈ E := by
    rw [getD_eq_of_lt E i h]
    exact List.getElem_mem h
  exact List.single_le_sum (fun x _ => Nat.zero_le x) _
    (List.mem_map_of_mem entrySize hmem)

theorem get_buildContent (E : List (Bytes × Bytes))
    (hT : (buildContent E).length < 4294967296) (i : Nat) (h : i < E.length) :
    SortedPageRef.get (buildContent E) i = some (E.getD i ([], [])) := by
  have hsz := entrySize_le_sizesSum E i h
  have hbl := buildContent_length E
  rw [entrySize] at hsz
  have hk : (E.getD i ([], [])).1.length < 4294967296 := by omega
  have hv : (E.getD i ([], [])).2.length < 4294967296 := by omega
  rw [SortedPageRef.get, item_buildContent E hT i h, Option.map_some',
    encEntry, decSlice_encSlice _ _ hk]
  simp only [decSlice_encSlice_nil _ hv]

theorem keyAt_buildContent (E : List (Bytes × Bytes))
    (hT : (buildContent E).length < 4294967296) (i : Nat) (h : i < E.length) :
    SortedPageRef.keyAt (buildContent E) i = (E.getD i ([], [])).1 := by
  have hsz := entrySize_le_sizesSum E i h
  have hbl := buildContent_length E
  rw [entrySize] at hsz
  have hk : (E.getD i ([], [])).1.length < 4294967296 := by omega
  rw [SortedPageRef.keyAt, item_buildContent E hT i h, Option.getD_some,
    encEntry, decSlice_encSlice _ _ hk]

/-- C2: building a sorted page from an entry list `E` with
`SortedPageBuilder` and reading it back through `SortedPageRef` is the
identity: the first `u32` word of the content is `N * 4` (so the reader
recovers the entry count `N` from it), `len()` is `N`, and `get(i)` is
exactly the `i`-th pair of `E` for every `i < N`. -/
theorem c2_sorted_page_roundtrip (E : List (Bytes × Bytes))
    (hsorted : E.Pairwise (fun a b => bytesLt a.1 b.1))
    (hT : (buildContent E).length < 4294967296) :
    (0 < E.length → readU32At (buildContent E) 0 = E.length * 4) ∧
    SortedPageRef.len (buildContent E) = E.length ∧
    ∀ i, i < E.length →
      SortedPageRef.get (buildContent E) i = some (E.getD i ([], [])) := by
  refine ⟨?_, len_buildContent E hT, fun i hi => get_buildContent E hT i hi⟩
  intro hpos
  have hr := readU32At_buildContent E 0 hpos
  simp only [Nat.mul_zero, List.take_zero] at hr
  have hz : sizesSum ([] : List (Bytes × Bytes)) = 0 := rfl
  rw [show (0 : Nat) = 4 * 0 by rfl, hr, hz, Nat.add_zero, Nat.mod_eq_of_lt]
  · omega
  · have := buildContent_length E
    omega

/-- Witness for C2 at a concrete two-entry list. -/
theorem c2_witness :
    SortedPageRef.get (buildContent [([1], [10]), ([2], [20])]) 1 =
      some ([2], [20]) :=
  (c2_sorted_page_roundtrip [([1], [10]), ([2], [20])] (by decide)
    (by decide)).2.2 1 (by decide)

/-- C10: a sorted page with empty content is read safely as an empty page
(`len() == 0`, taking the zero branch rather than the first offset word),
and on every page `get(index)` returns `None` whenever `index ≥ len()`. -/
theorem c10_empty_content_safe :
    (∀ c : Bytes, c.length = 0 → SortedPageRef.len c = 0) ∧
    (∀ (c : Bytes) (i : Nat), SortedPageRef.len c ≤ i →
      SortedPageRef.get c i = none) := by
  constructor
  · intro c hc
    rw [SortedPageRef.len, SortedPageRef.offsets, SortedPageRef.numOffsets,
      if_pos hc]
    simp
  · intro c i hi
    rw [SortedPageRef.len] at hi
    rw [SortedPageRef.get]
    unfold SortedPageRef.item
    rw [SortedPageRef.item_offset, List.getElem?_eq_none hi]
    rfl

/-- Witness for C10: the empty page and an out-of-bounds index. -/
theorem c10_witness :
    SortedPageRef.len ([] : Bytes) = 0 ∧
      SortedPageRef.get (buildContent [([1], [2])]) 5 = none :=
  ⟨c10_empty_content_safe.1 [] rfl,
   c10_empty_content_safe.2 (buildContent [([1], [2])]) 5 (by decide)⟩

/-- The invariant-based characterisation of the binary-search loop: if
everything left of `left` compares `Less` and everything from `right` on
compares `Greater`, then an `Ok` result is an exact match and an `Err`
result is the insertion point. -/
theorem rankAux_spec (c target : Bytes)
    (hsorted : ∀ i j, i < j → j < SortedPageRef.len c →
      bytesLt (SortedPageRef.keyAt c i) (SortedPageRef.keyAt c j)) :
    ∀ n left right, right - left = n →
      left ≤ right → right ≤ SortedPageRef.len c →
      (∀ j, j < left → bytesCmp (SortedPageRef.keyAt c j) target = .lt) →
      (∀ j, right ≤ j → j < SortedPageRef.len c →
        bytesCmp (SortedPageRef.keyAt c j) target = .gt) →
      (∀ i, SortedPageRef.rankAux c target left right = .ok i →
          i < SortedPageRef.len c ∧ SortedPageRef.keyAt c i = target) ∧
      (∀ p, SortedPageRef.rankAux c target left right = .error p →
          p ≤ SortedPageRef.len c ∧
          (∀ j, j < p → bytesCmp (SortedPageRef.keyAt c j) target = .lt) ∧
          (∀ j, p ≤ j → j < SortedPageRef.len c →
            bytesCmp (SortedPageRef.keyAt c j) target = .gt)) := by
  intro n
  induction n using Nat.strong_induction_on with
  | _ n ih =>
    intro left right hn hlr hrN hleft hright
    by_cases hlt : left < right
    · have hmid_lt : (left + right) / 2 < right := by omega
      have hmid_ge : left ≤ (left + right) / 2 := by omega
      have hmidN : (left + right) / 2 < SortedPageRef.len c := by omega
      cases hcmp : bytesCmp (SortedPageRef.keyAt c ((left + right) / 2)) target with
      | lt =>
        rw [SortedPageRef.rankAux, dif_pos hlt, hcmp]
        refine ih (right - ((left + right) / 2 + 1)) (by omega) _ _ rfl
          (by omega) hrN ?_ hright
        intro j hj
        rcases Nat.lt_or_ge j ((left + right) / 2) with hj' | hj'
        · exact bytesLt_trans (hsorted j _ hj' hmidN) hcmp
        · have : j = (left + right) / 2 := by omega
          rw [this]; exact hcmp
      | gt =>
        rw [SortedPageRef.rankAux, dif_pos hlt, hcmp]
        refine ih ((left + right) / 2 - left) (by omega) _ _ rfl
          (by omega) (by omega) hleft ?_
        intro j hj hjN
        rcases Nat.lt_or_ge j (right) with _ | hj2
        · rcases Nat.eq_or_lt_of_le hj with hj' | hj'
          · rw [← hj']; exact hcmp
          · have h1 : bytesLt target (SortedPageRef.keyAt c ((left + right) / 2)) :=
              bytesCmp_gt_iff.mp hcmp
            have h2 := hsorted _ j hj' hjN
            exact bytesCmp_gt_iff.mpr (bytesLt_trans h1 h2)
        · exact hright j hj2 hjN
      | eq =>
        rw [SortedPageRef.rankAux, dif_pos hlt, hcmp]
        constructor
        · intro i hi
          injection hi with hi
          rw [← hi]
          exact ⟨hmidN, bytesCmp_eq_iff.mp hcmp⟩
        · intro p hp
          cases hp
    · rw [SortedPageRef.rankAux, dif_neg hlt]
      constructor
      · intro i hi; cases hi
      · intro p hp
        injection hp with hp
        rw [← hp]
        have hle : left = right := by omega
        exact ⟨by omega, hleft, fun j hj hjN => hright j (by omega) hjN⟩

/-- `rank` characterised over the whole page. -/
theorem rank_spec (c target : Bytes)
    (hsorted : ∀ i j, i < j → j < SortedPageRef.len c →
      bytesLt (SortedPageRef.keyAt c i) (SortedPageRef.keyAt c j)) :
    (∀ i, SortedPageRef.rank c target = .ok i →
        i < SortedPageRef.len c ∧ SortedPageRef.keyAt c i = target) ∧
    (∀ p, SortedPageRef.rank c target = .error p →
        p ≤ SortedPageRef.len c ∧
        (∀ j, j < p → bytesCmp (SortedPageRef.keyAt c j) target = .lt) ∧
        (∀ j, p ≤ j → j < SortedPageRef.len c →
          bytesCmp (SortedPageRef.keyAt c j) target = .gt)) := by
  have := rankAux_spec c target hsorted (SortedPageRef.len c) 0
    (SortedPageRef.len c) (by omega) (by omega) (by omega)
    (by intro j hj; omega) (by intro j hj hjN; omega)
  exact this

/-- C3: on a page built from an entry list with strictly sorted keys,
`rank(target)` returns `Ok(i)` when the key at index `i` equals `target`,
and otherwise returns `Err(p)` where `p` is the insertion point: every key
below `p` is less than `target` and every key from `p` on is greater,
exactly as in binary search over the decoded entry list. -/
theorem c3_rank_binary_search (E : List (Bytes × Bytes)) (target : Bytes)
    (hsorted : E.Pairwise (fun a b => bytesLt a.1 b.1))
    (hT : (buildContent E).length < 4294967296) :
    (∀ i, i < E.length → (E.getD i ([], [])).1 = target →
      SortedPageRef.rank (buildContent E) target = .ok i) ∧
    ((∀ i, i < E.length → (E.getD i ([], [])).1 ≠ target) →
      ∃ p, SortedPageRef.rank (buildContent E) target = .error p ∧
        p ≤ E.length ∧
        (∀ j, j < p → bytesLt (E.getD j ([], [])).1 target) ∧
        (∀ j, p ≤ j → j < E.length → bytesLt target (E.getD j ([], [])).1)) := by
  have hlen := len_buildContent E hT
  have hsortE : ∀ i j, i < j → j < E.length →
      bytesLt (E.getD i ([], [])).1 (E.getD j ([], [])).1 := by
    intro i j hij hj
    have hi : i < E.length := lt_trans hij hj
    rw [getD_eq_of_lt E i hi, getD_eq_of_lt E j hj]
    have := List.pairwise_iff_get.mp hsorted ⟨i, hi⟩ ⟨j, hj⟩ hij
    simpa using this
  have hkey : ∀ i, i < E.length →
      SortedPageRef.keyAt (buildContent E) i = (E.getD i ([], [])).1 :=
    fun i hi => keyAt_buildContent E hT i hi
  have hsortc : ∀ i j, i < j → j < SortedPageRef.len (buildContent E) →
      bytesLt (SortedPageRef.keyAt (buildContent E) i)
        (SortedPageRef.keyAt (buildContent E) j) := by
    intro i j hij hj
    rw [hlen] at hj
    rw [hkey i (lt_trans hij hj), hkey j hj]
    exact hsortE i j hij hj
  have hspec := rank_spec (buildContent E) target hsortc
  constructor
  · intro i hi htgt
    cases hres : SortedPageRef.rank (buildContent E) target with
    | ok j =>
      obtain ⟨hjN, hj⟩ := hspec.1 j hres
      rw [hlen] at hjN
      rw [hkey j hjN] at hj
      rcases Nat.lt_trichotomy i j with hij | hij | hij
      · exact absurd (htgt ▸ hj ▸ hsortE i j hij hjN) (bytesLt_irrefl _)
      · rw [hij]
      · exact absurd (hj ▸ htgt ▸ hsortE j i hij hi) (bytesLt_irrefl _)
    | error p =>
      obtain ⟨hpN, hlo, hhi⟩ := hspec.2 p hres
      rw [hlen] at hpN
      rcases Nat.lt_or_ge i p with hip | hip
      · have := hlo i hip
        rw [hkey i hi, htgt] at this
        exact absurd this (bytesLt_irrefl _)
      · have := hhi i hip (by rw [hlen]; exact hi)
        rw [hkey i hi, htgt] at this
        exact absurd (bytesCmp_gt_iff.mp this) (bytesLt_irrefl _)
  · intro hnone
    cases hres : SortedPageRef.rank (buildContent E) target with
    | ok j =>
      obtain ⟨hjN, hj⟩ := hspec.1 j hres
      rw [hlen] at hjN
      rw [hkey j hjN] at hj
      exact absurd hj (hnone j hjN)
    | error p =>
      obtain ⟨hpN, hlo, hhi⟩ := hspec.2 p hres
      rw [hlen] at hpN
      refine ⟨p, rfl, hpN, ?_, ?_⟩
      · intro j hj
        have := hlo j hj
        rw [hkey j (by omega)] at this
        exact this
      · intro j hjp hjN
        have := hhi j hjp (by rw [hlen]; exact hjN)
        rw [hkey j hjN] at this
        exact bytesCmp_gt_iff.mp this

/-- Witness for C3: an exact match at index 1 of a concrete page. -/
theorem c3_witness :
    SortedPageRef.rank (buildContent [([1], [10]), ([3], [30])]) [3] =
      .ok 1 :=
  (c3_rank_binary_search [([1], [10]), ([3], [30])] [3] (by decide)
    (by decide)).1 1 (by decide) (by decide)

theorem mapLookup_mapInsert {α : Type} (m : List (Bytes × α)) (k k' : Bytes)
    (v : α) :
    mapLookup (mapInsert m k v) k' =
      if k = k' then some v else mapLookup m k' := by
  induction m with
  | nil =>
    by_cases h : k = k' <;> simp [mapInsert, mapLookup, h]
  | cons e m ih =>
    rw [mapInsert]
    cases hc : bytesCmp k e.1 with
    | lt =>
      by_cases h : k = k' <;> simp [mapLookup, h]
    | eq =>
      have he : k = e.1 := bytesCmp_eq_iff.mp hc
      by_cases h : k = k'
      · simp [mapLookup, h]
      · have : e.1 ≠ k' := by rw [← he]; exact h
        simp [mapLookup, h, this]
    | gt =>
      have hne : k ≠ e.1 := by
        intro hh
        rw [hh, bytesCmp_eq_iff.mpr rfl] at hc
        cases hc
      by_cases h : e.1 = k'
      · have hkk : k ≠ k' := by rw [← h]; exact hne
        simp [mapLookup, h, hkk]
      · simp [mapLookup, h, ih]

theorem mapLookup_mapRemove {α : Type} (m : List (Bytes × α)) (k k' : Bytes) :
    mapLookup (mapRemove m k) k' =
      if k = k' then none else mapLookup m k' := by
  induction m with
  | nil => by_cases h : k = k' <;> simp [mapRemove, mapLookup, h]
  | cons e m ih =>
    rw [mapRemove]
    by_cases he : e.1 = k
    · rw [if_pos he, ih]
      by_cases h : k = k'
      · simp [h]
      · have : e.1 ≠ k' := by rw [he]; exact h
        simp [h, this, mapLookup]
    · rw [if_neg he]
      by_cases h : e.1 = k'
      · have : k ≠ k' := by rw [← h]; exact fun hh => he hh.symm
        simp [mapLookup, h, this]
      · simp [mapLookup, h, ih]

theorem mapLookup_eq_none_of_lt {α : Type} (m : List (Bytes × α)) (k : Bytes)
    (h : ∀ e ∈ m, bytesLt k e.1) : mapLookup m k = none := by
  induction m with
  | nil => rfl
  | cons e m ih =>
    have hne : e.1 ≠ k := by
      intro hh
      have := h e (List.mem_cons_self e m)
      rw [hh] at this
      exact bytesLt_irrefl k this
    rw [mapLookup, if_neg hne]
    exact ih fun e' he' => h e' (List.mem_cons_of_mem e he')

theorem mapLookup_filter {α : Type} (m : List (Bytes × α))
    (p : Bytes × α → Bool) (k : Bytes) (hp : ∀ v : α, p (k, v) = true) :
    mapLookup (m.filter p) k = mapLookup m k := by
  induction m with
  | nil => rfl
  | cons e m ih =>
    by_cases he : e.1 = k
    · have : p e = true := by
        have : e = (k, e.2) := by
          cases e; simp at he; rw [he]
        rw [this]; exact hp e.2
      rw [List.filter_cons_of_pos this, mapLookup, if_pos he, mapLookup,
        if_pos he]
    · cases hpe : p e with
      | true =>
        rw [List.filter_cons_of_pos hpe, mapLookup, if_neg he, mapLookup,
          if_neg he]
        exact ih
      | false =>
        rw [List.filter_cons_of_neg (by simp [hpe]), mapLookup, if_neg he]
        exact ih

theorem mapLookup_applyStep (b : BaseData) (e : Bytes × Option Bytes)
    (k : Bytes) :
    mapLookup (applyStep b e).records k =
      if e.1 = k then e.2 else mapLookup b.records k := by
  rw [applyStep]
  cases he : e.2 with
  | some v =>
    cases hold : mapLookup b.records e.1 <;>
      simp [mapLookup_mapInsert]
  | none =>
    cases hold : mapLookup b.records e.1 with
    | some old =>
      simp only []
      rw [mapLookup_mapRemove]
    | none =>
      simp only []
      by_cases h : e.1 = k
      · rw [if_pos h, ← h, hold]
      · rw [if_neg h]

theorem mapLookup_apply_fold (rs : List (Bytes × Option Bytes)) :
    ∀ (b : BaseData) (k : Bytes),
      List.Pairwise (fun a b' => bytesLt a.1 b'.1) rs →
      mapLookup (rs.foldl applyStep b).records k =
        (match mapLookup rs k with
         | some (some v) => some v
         | some none => none
         | none => mapLookup b.records k) := by
  induction rs with
  | nil => intro b k _; rfl
  | cons e rs ih =>
    intro b k hp
    obtain ⟨hfir, hp'⟩ := List.pairwise_cons.mp hp
    rw [List.foldl_cons, ih (applyStep b e) k hp']
    by_cases hk : e.1 = k
    · have hnone : mapLookup rs k = none := by
        apply mapLookup_eq_none_of_lt
        intro e' he'
        rw [← hk]
        exact hfir e' he'
      rw [hnone, mapLookup, if_pos hk, mapLookup_applyStep, if_pos hk]
      cases e.2 <;> rfl
    · rw [mapLookup, if_neg hk]
      cases hrs : mapLookup rs k with
      | some o => cases o <;> rfl
      | none => simp only []; rw [mapLookup_applyStep, if_neg hk]

theorem mapLookup_merge_fold (rs : List (Bytes × Option Bytes)) :
    ∀ (m : List (Bytes × Option Bytes)) (k : Bytes),
      mapLookup (rs.foldl
          (fun m' e => if (mapLookup m' e.1).isSome then m'
                       else mapInsert m' e.1 e.2) m) k =
        (mapLookup m k).or (mapLookup rs k) := by
  induction rs with
  | nil => intro m k; simp [mapLookup]
  | cons e rs ih =>
    intro m k
    rw [List.foldl_cons, ih]
    by_cases hs : (mapLookup m e.1).isSome
    · rw [if_pos hs, mapLookup]
      by_cases hk : e.1 = k
      · rw [if_pos hk, ← hk]
        obtain ⟨x, hx⟩ := Option.isSome_iff_exists.mp hs
        rw [hx]
        rfl
      · rw [if_neg hk]
    · rw [if_neg hs, mapLookup]
      have hm : mapLookup m e.1 = none := Option.not_isSome_iff_eq_none.mp hs
      by_cases hk : e.1 = k
      · rw [if_pos hk, mapLookup_mapInsert, if_pos hk, ← hk, hm]
        rfl
      · rw [if_neg hk, mapLookup_mapInsert, if_neg hk]

/-- C5: overlay follows chain order with the head winning.  Merging the
tail delta into the head keeps the head's value for every key present in
both (indeed the merged delta is the head overlaid on the tail), and
applying a delta to a base inserts each put and removes each delete, so
lookups in the result see the delta first and the base underneath. -/
theorem c5_overlay_head_wins (head tail : DeltaData) (b : BaseData)
    (delta : DeltaData) (k : Bytes)
    (hd : List.Pairwise (fun a b' => bytesLt a.1 b'.1) delta.records) :
    ((DeltaData.get head k).isSome →
      DeltaData.get (head.merge tail) k = DeltaData.get head k) ∧
    DeltaData.get (head.merge tail) k =
      (DeltaData.get head k).or (DeltaData.get tail k) ∧
    BaseData.get (b.apply delta) k =
      (match DeltaData.get delta k with
       | some (some v) => some v
       | some none => none
       | none => BaseData.get b k) := by
  have hmerge : DeltaData.get (head.merge tail) k =
      (DeltaData.get head k).or (DeltaData.get tail k) := by
    rw [DeltaData.merge, DeltaData.get]
    exact mapLookup_merge_fold tail.records head.records k
  refine ⟨?_, hmerge, ?_⟩
  · intro hs
    rw [hmerge]
    obtain ⟨x, hx⟩ := Option.isSome_iff_exists.mp hs
    rw [hx]
    rfl
  · rw [BaseData.apply, BaseData.get]
    exact mapLookup_apply_fold delta.records b k hd

/-- Witness for C5 at concrete deltas and base: the head's put of key `[1]`
wins over the tail's delete, and applying a delta with a put of `[2]` and
a delete of `[1]` yields the expected lookups. -/
theorem c5_witness :
    DeltaData.get (DeltaData.merge ⟨[([1], some [7])]⟩ ⟨[([1], none)]⟩) [1] =
        some (some [7]) ∧
      BaseData.get
        (BaseData.apply ⟨3, [], [], [([1], [9])]⟩ ⟨[([1], none), ([2], some [8])]⟩)
        [2] = some [8] := by
  constructor
  · have h := (c5_overlay_head_wins ⟨[([1], some [7])]⟩ ⟨[([1], none)]⟩
      ⟨3, [], [], [([1], [9])]⟩ ⟨[([1], none), ([2], some [8])]⟩ [1]
      (by decide)).2.1
    rw [h]
    decide
  · have h := (c5_overlay_head_wins ⟨[([1], some [7])]⟩ ⟨[([1], none)]⟩
      ⟨3, [], [], [([1], [9])]⟩ ⟨[([1], none), ([2], some [8])]⟩ [2]
      (by decide)).2.2
    rw [h]
    decide

/-- C6: the empty `highest` bound behaves as positive infinity:
`retain(lowest, "")` keeps every record whose key is `≥ lowest`; a split
descriptor with empty `highest` covers every key `≥ middle`; and the right
half produced by `split` inherits the original `highest`, so an empty
`highest` stays unbounded after a split. -/
theorem c6_empty_highest_is_infinity :
    (∀ (b : BaseData) (lowest k : Bytes), bytesLe lowest k →
      BaseData.get (b.retain lowest []) k = BaseData.get b k) ∧
    (∀ (s : SplitNode) (k : Bytes), s.highest = [] → bytesLe s.middle k →
      s.covers k = some s.right_page) ∧
    (∀ b right : BaseData, b.split = some right →
      right.highest = b.highest ∧ (b.highest = [] → right.highest = [])) := by
  refine ⟨?_, ?_, ?_⟩
  · intro b lowest k hk
    rw [BaseData.retain, BaseData.get, BaseData.get]
    simp only []
    apply mapLookup_filter
    intro v
    simp [hk]
  · intro s k hh hk
    rw [SplitNode.covers, if_pos]
    exact ⟨hk, Or.inr hh⟩
  · intro b right hsplit
    rw [BaseData.split] at hsplit
    cases hkey : (b.records.map Prod.fst)[(b.records.length + 1) / 2]? with
    | some key =>
      rw [hkey] at hsplit
      simp only [Option.some.injEq] at hsplit
      rw [← hsplit]
      exact ⟨rfl, fun h => h ▸ rfl⟩
    | none =>
      rw [hkey] at hsplit
      cases hsplit

/-- Witness for C6 at concrete pages. -/
theorem c6_witness :
    BaseData.get (BaseData.retain ⟨2, [], [5], [([3], [7])]⟩ [1] []) [3] =
        some [7] ∧
      SplitNode.covers ⟨[], [2], [], ⟨9, 1⟩⟩ [4] = some ⟨9, 1⟩ := by
  constructor
  · have h := c6_empty_highest_is_infinity.1 ⟨2, [], [5], [([3], [7])]⟩ [1] [3]
      (by decide)
    rw [h]
    decide
  · exact c6_empty_highest_is_infinity.2.1 ⟨[], [2], [], ⟨9, 1⟩⟩ [4] rfl
      (by decide)

theorem le_getLast_of_sorted {α : Type} :
    ∀ (l : List (Bytes × α)) (x : Bytes × α),
      List.Pairwise (fun a b' => bytesLt a.1 b'.1) l →
      l.getLast? = some x → ∀ e ∈ l, bytesLe e.1 x.1 := by
  intro l
  induction l with
  | nil => intro x _ hx; cases hx
  | cons a l ih =>
    intro x hs hx e he
    obtain ⟨hfa, hl⟩ := List.pairwise_cons.mp hs
    cases l with
    | nil =>
      have hax : a = x := by simpa using hx
      rcases List.mem_cons.mp he with he' | he'
      · rw [he', hax]; exact bytesLe_refl _
      · cases he'
    | cons b l' =>
      rw [List.getLast?_cons_cons] at hx
      rcases List.mem_cons.mp he with he' | he'
      · have hxmem := List.mem_of_getLast?_eq_some hx
        rw [he']
        exact bytesLe_of_lt (hfa x hxmem)
      · exact ih x hl hx e he'

/-- C7: on a base index page with sorted separators, `get(k)` is `None`
exactly when every separator is greater than `k`, and otherwise returns the
handle of the child whose separator is the greatest separator `≤ k`. -/
theorem c7_index_get_greatest_le (b : BaseIndex) (k : Bytes)
    (hs : List.Pairwise (fun a b' => bytesLt a.1 b'.1) b.children) :
    (BaseIndex.get b k = none ↔ ∀ e ∈ b.children, bytesLt k e.1) ∧
    (∀ h, BaseIndex.get b k = some h →
      ∃ s, (s, h) ∈ b.children ∧ bytesLe s k ∧
        ∀ e ∈ b.children, bytesLe e.1 k → bytesLe e.1 s) := by
  constructor
  · constructor
    · intro hnone e he
      rw [BaseIndex.get] at hnone
      have hgl : (b.children.filter fun e =>
          decide (bytesLe e.1 k)).getLast? = none := by
        cases hgl : (b.children.filter fun e =>
            decide (bytesLe e.1 k)).getLast? with
        | none => rfl
        | some x => rw [hgl] at hnone; cases hnone
      rw [List.getLast?_eq_none_iff] at hgl
      have := List.filter_eq_nil_iff.mp hgl e he
      rw [decide_eq_true_eq] at this
      exact not_bytesLe_iff.mp this
    · intro hall
      rw [BaseIndex.get]
      have hnil : (b.children.filter fun e => decide (bytesLe e.1 k)) = [] := by
        rw [List.filter_eq_nil_iff]
        intro e he
        simp only [decide_eq_true_eq]
        exact not_bytesLe_iff.mpr (hall e he)
      rw [hnil]
      rfl
  · intro h hsome
    rw [BaseIndex.get] at hsome
    cases hgl : (b.children.filter fun e =>
        decide (bytesLe e.1 k)).getLast? with
    | none => rw [hgl] at hsome; cases hsome
    | some x =>
      rw [hgl] at hsome
      have hx2 : x.2 = h := by
        injection hsome
      have hmemf := List.mem_of_getLast?_eq_some hgl
      have hmem := (List.mem_filter.mp hmemf).1
      have hle : bytesLe x.1 k := by
        have := (List.mem_filter.mp hmemf).2
        simpa using this
      refine ⟨x.1, ?_, hle, ?_⟩
      · have hxe : (x.1, h) = x := by rw [← hx2]
        rw [hxe]
        exact hmem
      · intro e he hek
        have hef : e ∈ b.children.filter fun e => decide (bytesLe e.1 k) :=
          List.mem_filter.mpr ⟨he, by simpa using hek⟩
        exact le_getLast_of_sorted _ x
          (List.Pairwise.sublist (List.filter_sublist _) hs) hgl e hef

/-- Witness for C7: no separator is `≤ [2]` in a page whose only separator
is `[5]`, so `get([2])` is `None`. -/
theorem c7_witness :
    BaseIndex.get ⟨0, [], [], [([5], ⟨5, 0⟩)]⟩ [2] = none :=
  (c7_index_get_greatest_le ⟨0, [], [], [([5], ⟨5, 0⟩)]⟩ [2] (by decide)).1.mpr
    (by decide)

/-- C8: `split` on a base page with exactly one entry finds no middle key
(`nth = 1` is out of range) and returns `None`, for base data and base
index pages alike. -/
theorem c8_singleton_split_none :
    (∀ b : BaseData, b.records.length = 1 → b.split = none) ∧
    (∀ b : BaseIndex, b.children.length = 1 → b.split = none) := by
  constructor
  · intro b h
    rw [BaseData.split]
    have hn : (b.records.map Prod.fst)[(b.records.length + 1) / 2]? = none := by
      apply List.getElem?_eq_none
      rw [List.length_map, h]
    rw [hn]
  · intro b h
    rw [BaseIndex.split]
    have hn : (b.children.map Prod.fst)[(b.children.length + 1) / 2]? = none := by
      apply List.getElem?_eq_none
      rw [List.length_map, h]
    rw [hn]

/-- Witness for C8 at concrete one-entry pages. -/
theorem c8_witness :
    BaseData.split ⟨2, [], [], [([1], [2])]⟩ = none ∧
      BaseIndex.split ⟨17, [], [], [([1], ⟨1, 0⟩)]⟩ = none :=
  ⟨c8_singleton_split_none.1 ⟨2, [], [], [([1], [2])]⟩ rfl,
   c8_singleton_split_none.2 ⟨17, [], [], [([1], ⟨1, 0⟩)]⟩ rfl⟩

theorem chainHeaders_nil : chainHeaders [] = [PageHeader.new] := rfl

theorem chainHeaders_cons (op : Bool) (ops : List Bool) :
    chainHeaders (op :: ops) =
      (if op then
        PageHeader.with_next_epoch ((chainHeaders ops).headD PageHeader.new) 0
       else
        PageHeader.with_next ((chainHeaders ops).headD PageHeader.new) 0) ::
        chainHeaders ops := rfl

theorem headD_eq_getD_zero {α : Type} (l : List α) (d : α) :
    l.headD d = l.getD 0 d := by
  cases l <;> rfl

/-- C9: `with_next` copies the next frame's epoch, sets the new head's
chain length to one more than the next frame's, and points `next` at the
prior head; `with_next_epoch` additionally increments the epoch.  In every
chain built by any sequence of these operations the epoch is non-decreasing
from tail to head, and each frame's `len` counts the frames from it down to
the base. -/
theorem c9_link_chain_invariants :
    (∀ (h : PageHeader) (a : Nat),
      (PageHeader.with_next h a).epoch = h.epoch ∧
      (PageHeader.with_next h a).len = h.len + 1 ∧
      (PageHeader.with_next h a).next = a) ∧
    (∀ (h : PageHeader) (a : Nat),
      (PageHeader.with_next_epoch h a).epoch = h.epoch + 1 ∧
      (PageHeader.with_next_epoch h a).len = h.len + 1 ∧
      (PageHeader.with_next_epoch h a).next = a) ∧
    (∀ ops : List Bool,
      (chainHeaders ops).length = ops.length + 1 ∧
      (∀ i, i < (chainHeaders ops).length →
        ((chainHeaders ops).getD i PageHeader.new).len =
          (chainHeaders ops).length - i) ∧
      (chainHeaders ops).Pairwise fun x y => y.epoch ≤ x.epoch) := by
  refine ⟨fun h a => ⟨rfl, rfl, rfl⟩, fun h a => ⟨rfl, rfl, rfl⟩, ?_⟩
  intro ops
  induction ops with
  | nil =>
    refine ⟨rfl, ?_, List.pairwise_singleton _ _⟩
    intro i hi
    rw [chainHeaders_nil] at hi ⊢
    simp at hi
    subst hi
    rfl
  | cons op ops ih =>
    obtain ⟨ihlen, ihget, ihpw⟩ := ih
    have hheadlen : ((chainHeaders ops).headD PageHeader.new).len =
        ops.length + 1 := by
      rw [headD_eq_getD_zero, ihget 0 (by omega), ihlen]
      omega
    have hlen : (chainHeaders (op :: ops)).length = ops.length + 2 := by
      rw [chainHeaders_cons]
      simp [ihlen]
    refine ⟨by rw [hlen]; rfl, ?_, ?_⟩
    · intro i hi
      cases i with
      | zero =>
        rw [hlen, chainHeaders_cons]
        cases op
        · rw [if_neg (by simp)]
          simp only [List.getD_cons_zero, Nat.sub_zero]
          show ((chainHeaders ops).headD PageHeader.new).len + 1 =
            ops.length + 2
          rw [hheadlen]
        · rw [if_pos rfl]
          simp only [List.getD_cons_zero, Nat.sub_zero]
          show ((chainHeaders ops).headD PageHeader.new).len + 1 =
            ops.length + 2
          rw [hheadlen]
      | succ i =>
        rw [hlen, chainHeaders_cons]
        rw [hlen] at hi
        simp only [List.getD_cons_succ]
        rw [ihget i (by omega), ihlen]
        omega
    · rw [chainHeaders_cons, List.pairwise_cons]
      refine ⟨?_, ihpw⟩
      intro y hy
      have hy_le_head : y.epoch ≤
          ((chainHeaders ops).headD PageHeader.new).epoch := by
        cases hcl : chainHeaders ops with
        | nil =>
          rw [hcl] at hy
          cases hy
        | cons x xs =>
          rw [hcl] at hy
          rw [hcl] at ihpw
          simp only [List.headD_cons]
          rcases List.mem_cons.mp hy with hy' | hy'
          · rw [hy']
          · exact (List.pairwise_cons.mp ihpw).1 y hy'
      cases op
      · simpa [PageHeader.with_next] using hy_le_head
      · refine le_trans hy_le_head ?_
        simp [PageHeader.with_next, PageHeader.with_next_epoch]

/-- Witness for C9: the chain built by one plain link over one
epoch-bumping link has a head with `len = 3`. -/
theorem c9_witness :
    ((chainHeaders [false, true]).getD 0 PageHeader.new).len = 3 :=
  ((c9_link_chain_invariants.2.2 [false, true]).2.1 0 (by decide)).trans
    (by decide)

/-- Counterexample to C1 as stated: converting the page-store I/O error
into the façade error type does not succeed (it is the `unreachable!`
branch), so I/O errors are not wrapped verbatim. -/
theorem c1_counterexample : fromPageError (PageError.Io 7) = none := rfl

/-- C1 (amended): the façade error type surfaces exactly one kind,
`Corrupted`; converting `PageError::Corrupted` yields it, and converting
any other page-store error (in particular an I/O error) is the
`unreachable!` branch rather than a wrapping conversion. -/
theorem c1_facade_corrupted_only (e : PageError)
    (h : e ≠ PageError.Corrupted) :
    (∀ x : Error, x = Error.Corrupted) ∧
    fromPageError PageError.Corrupted = some Error.Corrupted ∧
    fromPageError e = none := by
  refine ⟨fun x => by cases x; rfl, rfl, ?_⟩
  cases e with
  | Corrupted => exact absurd rfl h
  | Io n => rfl
  | OutOfSpace => rfl
  | Conflict => rfl

/-- Witness for C1 (amended) at the out-of-space error. -/
theorem c1_witness : fromPageError PageError.OutOfSpace = none :=
  (c1_facade_corrupted_only PageError.OutOfSpace (by decide)).2.2

theorem bytesLt_asymm {a b : Bytes} (h : bytesLt a b) : ¬ bytesLt b a :=
  fun h' => bytesLt_irrefl a (bytesLt_trans h h')

theorem pairwise_getElem {α : Type} (l : List (Bytes × α))
    (hs : List.Pairwise (fun a b' => bytesLt a.1 b'.1) l) :
    ∀ i j (hi : i < l.length) (hj : j < l.length), i < j →
      bytesLt (l[i].1) (l[j].1) := by
  intro i j hi hj hij
  have := List.pairwise_iff_get.mp hs ⟨i, hi⟩ ⟨j, hj⟩ hij
  simpa using this

theorem filter_eq_take {α : Type} (p : Bytes × α → Bool) :
    ∀ (l : List (Bytes × α)) (n : Nat), n ≤ l.length →
      (∀ i (hi : i < l.length), i < n → p l[i] = true) →
      (∀ i (hi : i < l.length), n ≤ i → p l[i] = false) →
      l.filter p = l.take n := by
  intro l
  induction l with
  | nil => intro n _ _ _; simp
  | cons a l ih =>
    intro n hn h1 h2
    cases n with
    | zero =>
      rw [List.take_zero, List.filter_eq_nil_iff]
      intro e he
      obtain ⟨i, hi, hei⟩ := List.mem_iff_getElem.mp he
      intro hpe
      rw [← hei, h2 i hi (Nat.zero_le i)] at hpe
      cases hpe
    | succ n =>
      have hpa : p a = true := h1 0 (by simp) (by omega)
      rw [List.filter_cons_of_pos hpa, List.take_succ_cons]
      congr 1
      apply ih n (by simpa using hn)
      · intro i hi hin
        have := h1 (i + 1) (by simpa using hi) (by omega)
        simpa using this
      · intro i hi hin
        have := h2 (i + 1) (by simpa using hi) (by omega)
        simpa using this

theorem sorted_lt_of_mem_drop_succ {α : Type} :
    ∀ (l : List (Bytes × α)),
      List.Pairwise (fun a b' => bytesLt a.1 b'.1) l →
      ∀ (n : Nat) (hn : n < l.length),
        ∀ e ∈ l.drop (n + 1), bytesLt ((l[n]).1) e.1 := by
  intro l
  induction l with
  | nil => intro _ n hn; simp at hn
  | cons a l ih =>
    intro hs n hn e he
    obtain ⟨hfa, hl⟩ := List.pairwise_cons.mp hs
    cases n with
    | zero =>
      simp only [List.drop_succ_cons, List.drop_zero] at he
      simpa using hfa e he
    | succ n =>
      simp only [List.drop_succ_cons] at he
      simp only [List.getElem_cons_succ]
      exact ih hl n (by simpa using hn) e he

/-- With a sorted record list bounded below by `lowest`, the `retain`
filter up to the key at index `n` keeps exactly the first `n` records. -/
theorem retain_filter_eq_take {α : Type} (l : List (Bytes × α))
    (lowest : Bytes) (n : Nat) (hn : n < l.length) (hn1 : 1 ≤ n)
    (hs : List.Pairwise (fun a b' => bytesLt a.1 b'.1) l)
    (hb : ∀ e ∈ l, bytesLe lowest e.1) :
    (l.filter fun e => decide (bytesLe lowest e.1) &&
      (decide (bytesLt e.1 (l[n].1)) || (l[n].1).isEmpty)) = l.take n := by
  have hkey_ne : l[n].1 ≠ [] := by
    intro hnil
    have h0 := pairwise_getElem l hs 0 n (by omega) hn (by omega)
    rw [hnil] at h0
    exact bytesLt_nil _ h0
  have hkey_emp : (l[n].1).isEmpty = false := by
    cases hk : l[n].1 with
    | nil => exact absurd hk hkey_ne
    | cons x xs => rfl
  apply filter_eq_take
  · omega
  · intro i hi hin
    have hbe := hb l[i] (List.getElem_mem hi)
    have hlt := pairwise_getElem l hs i n hi hn hin
    simp [hbe, hlt]
  · intro i hi hin
    have hnlt : ¬ bytesLt (l[i].1) (l[n].1) := by
      rcases Nat.eq_or_lt_of_le hin with hin' | hin'
      · subst hin'
        exact bytesLt_irrefl _
      · exact bytesLt_asymm (pairwise_getElem l hs n i hn hi hin')
    simp [hnlt, hkey_emp]

/-- C4 (amended): splitting a base data page preserves content without
loss or duplication — the records kept by `retain(lowest, middle)` on the
left followed by the right half's records are exactly the original
records (so their multisets add up to the original), and every record of
each half lies within that half's `[lowest, highest)` bounds.  For a base
index page, `split` starts the right half one entry early
(`iter().skip(nth - 1)`): the partition only holds after dropping the
right half's first entry, which is duplicated in the left half and lies
below the right half's lower bound. -/
theorem c4_split_retain_partition :
    (∀ b right : BaseData,
      List.Pairwise (fun a b' => bytesLt a.1 b'.1) b.records →
      (∀ e ∈ b.records, bytesLe b.lowest e.1 ∧
        (bytesLt e.1 b.highest ∨ b.highest = [])) →
      b.split = some right →
      (b.retain b.lowest right.lowest).records ++ right.records =
          b.records ∧
        ((b.retain b.lowest right.lowest).records :
            Multiset (Bytes × Bytes)) + (right.records : Multiset (Bytes × Bytes)) =
          (b.records : Multiset (Bytes × Bytes)) ∧
        (∀ e ∈ right.records, bytesLe right.lowest e.1 ∧
          (bytesLt e.1 right.highest ∨ right.highest = [])) ∧
        (∀ e ∈ (b.retain b.lowest right.lowest).records,
          bytesLe (b.retain b.lowest right.lowest).lowest e.1 ∧
            (bytesLt e.1 (b.retain b.lowest right.lowest).highest ∨
              (b.retain b.lowest right.lowest).highest = []))) ∧
    (∀ b right : BaseIndex,
      List.Pairwise (fun a b' => bytesLt a.1 b'.1) b.children →
      (∀ e ∈ b.children, bytesLe b.lowest e.1 ∧
        (bytesLt e.1 b.highest ∨ b.highest = [])) →
      b.split = some right →
      (b.retain b.lowest right.lowest).children ++
          right.children.drop 1 = b.children ∧
        ∃ dup, right.children.head? = some dup ∧
          dup ∈ (b.retain b.lowest right.lowest).children ∧
          bytesLt dup.1 right.lowest) := by
  constructor
  · intro b right hs hb hsplit
    rw [BaseData.split] at hsplit
    cases hkey : (b.records.map Prod.fst)[(b.records.length + 1) / 2]? with
    | none => rw [hkey] at hsplit; cases hsplit
    | some key =>
      rw [hkey] at hsplit
      injection hsplit with hsplit
      subst hsplit
      obtain ⟨hn, hkey'⟩ := List.getElem?_eq_some_iff.mp hkey
      rw [List.length_map] at hn
      have hkeyv : key = (b.records[(b.records.length + 1) / 2]).1 := by
        rw [← hkey']
        simp
      have hn1 : 1 ≤ (b.records.length + 1) / 2 := by omega
      have hfilter :
          (b.records.filter fun e => decide (bytesLe b.lowest e.1) &&
            (decide (bytesLt e.1 key) || key.isEmpty)) =
            b.records.take ((b.records.length + 1) / 2) := by
        rw [hkeyv]
        exact retain_filter_eq_take b.records b.lowest _ hn hn1 hs
          (fun e he => (hb e he).1)
      have hpart : (BaseData.retain b b.lowest key).records ++
          b.records.drop ((b.records.length + 1) / 2) = b.records := by
        show (b.records.filter _) ++ _ = b.records
        rw [hfilter, List.take_append_drop]
      refine ⟨hpart, ?_, ?_, ?_⟩
      · rw [Multiset.coe_add]
        exact congrArg Multiset.ofList hpart
      · intro e he
        constructor
        · show bytesLe key e.1
          rw [List.drop_eq_getElem_cons hn] at he
          rcases List.mem_cons.mp he with he' | he'
          · rw [he', hkeyv]
            exact bytesLe_refl _
          · rw [hkeyv]
            exact bytesLe_of_lt
              (sorted_lt_of_mem_drop_succ b.records hs _ hn e he')
        · show bytesLt e.1 b.highest ∨ b.highest = []
          exact (hb e (List.drop_subset _ _ he)).2
      · intro e he
        show bytesLe b.lowest e.1 ∧ (bytesLt e.1 key ∨ key = [])
        have hp := (List.mem_filter.mp he).2
        simp only [Bool.and_eq_true, Bool.or_eq_true, decide_eq_true_eq,
          List.isEmpty_eq_true] at hp
        exact hp
  · intro b right hs hb hsplit
    rw [BaseIndex.split] at hsplit
    cases hkey : (b.children.map Prod.fst)[(b.children.length + 1) / 2]? with
    | none => rw [hkey] at hsplit; cases hsplit
    | some key =>
      rw [hkey] at hsplit
      injection hsplit with hsplit
      subst hsplit
      obtain ⟨hn, hkey'⟩ := List.getElem?_eq_some_iff.mp hkey
      rw [List.length_map] at hn
      have hkeyv : key = (b.children[(b.children.length + 1) / 2]).1 := by
        rw [← hkey']
        simp
      have hn1 : 1 ≤ (b.children.length + 1) / 2 := by omega
      have hfilter :
          (b.children.filter fun e => decide (bytesLe b.lowest e.1) &&
            (decide (bytesLt e.1 key) || key.isEmpty)) =
            b.children.take ((b.children.length + 1) / 2) := by
        rw [hkeyv]
        exact retain_filter_eq_take b.children b.lowest _ hn hn1 hs
          (fun e he => (hb e he).1)
      have hn1' : (b.children.length + 1) / 2 - 1 < b.children.length := by
        omega
      have hdrop1 : (b.children.drop ((b.children.length + 1) / 2 - 1)).drop 1 =
          b.children.drop ((b.children.length + 1) / 2) := by
        rw [List.drop_drop]
        congr 1
        omega
      constructor
      · show (b.children.filter _) ++ _ = b.children
        rw [hfilter, hdrop1, List.take_append_drop]
      · refine ⟨b.children[(b.children.length + 1) / 2 - 1], ?_, ?_, ?_⟩
        · show (b.children.drop ((b.children.length + 1) / 2 - 1)).head? = _
          rw [List.drop_eq_getElem_cons hn1']
          rfl
        · show _ ∈ b.children.filter _
          rw [hfilter]
          have hget : (b.children.take
              ((b.children.length + 1) / 2))[(b.children.length + 1) / 2 - 1]? =
              some (b.children[(b.children.length + 1) / 2 - 1]) := by
            rw [List.getElem?_take_of_lt (by omega)]
            exact List.getElem?_eq_getElem hn1'
          exact List.getElem?_mem hget
        · show bytesLt _ key
          rw [hkeyv]
          exact pairwise_getElem b.children hs _ _ hn1' hn (by omega)

/-- Counterexample for C4 as stated: on a two-entry base index page, the
right half produced by `split` keeps both entries, so the entry before the
middle key occurs in both halves (count 2 instead of 1) and lies below the
right half's lower bound `[2]`. -/
theorem c4_counterexample :
    BaseIndex.split c4ExampleIndex =
      some ⟨34, [2], [], c4ExampleIndex.children⟩ ∧
    ((c4ExampleIndex.retain [] [2]).children ++
        c4ExampleIndex.children).count ([1], c4ExampleHandle) = 2 ∧
    c4ExampleIndex.children.count ([1], c4ExampleHandle) = 1 ∧
    bytesLt [1] [2] := by
  refine ⟨?_, ?_, ?_, ?_⟩ <;> decide

/-- Witness for C4 (amended) at a concrete four-entry base data page. -/
theorem c4_witness :
    (BaseData.retain ⟨0, [], [], [([1], [5]), ([2], [6]), ([3], [7]), ([4], [8])]⟩
          [] [3]).records ++
        [([3], [7]), ([4], [8])] =
      [([1], [5]), ([2], [6]), ([3], [7]), ([4], [8])] := by
  have h := (c4_split_retain_partition.1
    ⟨0, [], [], [([1], [5]), ([2], [6]), ([3], [7]), ([4], [8])]⟩
    ⟨recordsSize [([3], [7]), ([4], [8])], [3], [],
      [([3], [7]), ([4], [8])]⟩
    (by decide) (by decide) (by decide)).1
  exact h
